import Mathlib

/-!
Verification of the frequency-counter core of EnglishWordFrequencyAnalyzer.

The Python sources keep word frequencies in a `collections.Counter`, which is
an insertion-ordered dictionary from words to integer counts.  We embed such a
table as an association list `List (String × Nat)` whose order is the
dictionary's insertion order (for `Counter(words)` this is the order of first
occurrence of each word in `words`).  Building a counter from an iterable is
the loop `for elem in iterable: self[elem] = 1 + self.get(elem, 0)`, embedded
as a left fold of `bump`; `Counter.update` with another counter runs
`for elem, count in other.items(): self[elem] = count + self.get(elem, 0)`,
embedded as `updateTable`.  `Counter.most_common(n)` is documented and
implemented as a stable descending sort on the count, truncated to `n`
elements; we embed it as a stable insertion sort `sortDesc` followed by
`List.take`.
-/

namespace WFA

/-- One entry of the frequency table: a word together with its count. -/
abbrev Entry := String × Nat

/-- The frequency table of `WordCounter.word_counts`: an association list in
dictionary insertion order, embedding `collections.Counter`. -/
abbrev Table := List Entry

/-- The key list of a table, in insertion order. -/
def keys (t : Table) : List String :=
  t.map Prod.fst

/-- Dictionary write `self[w] = c + self.get(w, 0)`: add `c` to the count
stored for `w`, appending a fresh entry at the end when `w` is absent. -/
def addCount : Table → String → Nat → Table
  | [], w, c => [(w, c)]
  | (k, v) :: rest, w, c =>
    if k = w then (k, v + c) :: rest else (k, v) :: addCount rest w c

/-- One step of `Counter.__init__` from an iterable: count one occurrence. -/
def bump (t : Table) (w : String) : Table :=
  addCount t w 1

/-- `collections.Counter(words)`: fold the counting loop over the word list. -/
def counterOfList (words : List String) : Table :=
  words.foldl bump []

/-- Dictionary read `t.get(w, 0)`: the count stored for `w`, defaulting to 0. -/
def lookup : Table → String → Nat
  | [], _ => 0
  | (k, c) :: rest, w => if k = w then c else lookup rest w

/-- The sum of all counts of a table. -/
def sumCounts (t : Table) : Nat :=
  (t.map Prod.snd).sum

/-- `Counter.update(other)` for two counters: the loop
`for elem, count in other.items(): self[elem] = count + self.get(elem, 0)`. -/
def updateTable (t : Table) : Table → Table
  | [] => t
  | (k, c) :: rest => updateTable (addCount t k c) rest

/-- Stable insertion of an entry into a count-descending table: the entry goes
in front of the first entry whose count is not larger, so an earlier-processed
entry precedes later entries of equal count. -/
def insertDesc (p : Entry) : Table → Table
  | [] => [p]
  | q :: rest => if q.2 ≤ p.2 then p :: q :: rest else q :: insertDesc p rest

/-- Stable descending sort on the count, embedding the sort performed by
`Counter.most_common` (`heapq.nlargest` over the items, which is equivalent to
a stable reverse sort on the count). -/
def sortDesc : Table → Table
  | [] => []
  | p :: rest => insertDesc p (sortDesc rest)

/-- Per-character lowercasing, embedding `str.lower()` on ASCII words. -/
def pyLower (w : String) : String :=
  ⟨w.data.map Char.toLower⟩

/-- The state of `analyzer.counter.WordCounter`: the frequency table
`word_counts` and the running token total `total_words`. -/
structure WordCounter where
  word_counts : Table
  total_words : Nat
deriving DecidableEq

/-- `WordCounter.__init__`: empty table, zero total. -/
def WordCounter.mkEmpty : WordCounter :=
  { word_counts := [], total_words := 0 }

/-- `WordCounter.count_words(words)`: on an empty list return a fresh empty
counter without touching the state; otherwise rebuild the table from `words`,
set the total, and return the new table.  The result pairs the updated state
with the returned table. -/
def WordCounter.count_words (s : WordCounter) (words : List String) :
    WordCounter × Table :=
  if words.isEmpty then (s, [])
  else ({ word_counts := counterOfList words, total_words := words.length },
    counterOfList words)

/-- `WordCounter.get_most_common(n)`: the first `n` entries of the stable
count-descending sort of the table. -/
def WordCounter.get_most_common (s : WordCounter) (n : Nat) : List Entry :=
  (sortDesc s.word_counts).take n

/-- `WordCounter.get_word_frequency(word)`:
`self.word_counts.get(word.lower(), 0)`. -/
def WordCounter.get_word_frequency (s : WordCounter) (word : String) : Nat :=
  lookup s.word_counts (pyLower word)

/-- `WordCounter.filter_by_frequency(min_freq, max_freq)`: keep the entries
whose count lies in the requested range (`none` meaning no upper bound). -/
def WordCounter.filter_by_frequency (s : WordCounter) (min_freq : Int)
    (max_freq : Option Int) : Table :=
  s.word_counts.filter fun p =>
    decide (min_freq ≤ (p.2 : Int)) &&
      (match max_freq with
        | none => true
        | some m => decide ((p.2 : Int) ≤ m))

/-- `WordCounter.merge_counts(other_counter)`: when the other table is
nonempty, update the table with it and add the totals; otherwise do nothing. -/
def WordCounter.merge_counts (s other : WordCounter) : WordCounter :=
  if other.word_counts.isEmpty then s
  else { word_counts := updateTable s.word_counts other.word_counts,
         total_words := s.total_words + other.total_words }

/-- `WordCounter.clear()`: empty the table and reset the total. -/
def WordCounter.clear (s : WordCounter) : WordCounter :=
  { word_counts := [], total_words := 0 }

/-- The states of a `WordCounter` reachable by the operations of the class
that modify its state. -/
inductive Reachable : WordCounter → Prop where
  | mkEmpty : Reachable WordCounter.mkEmpty
  | count_words (s : WordCounter) (ws : List String) :
      Reachable s → Reachable (s.count_words ws).1
  | merge_counts (s o : WordCounter) :
      Reachable s → Reachable o → Reachable (s.merge_counts o)
  | clear (s : WordCounter) : Reachable s → Reachable s.clear

/-- The state of `analyzer.pos_filter.POSFilter`: the `enabled` flag and the
set of allowed tags (embedded as a list). -/
structure POSFilter where
  enabled : Bool
  allowed_pos_tags : List String

/-- `POSFilter.filter_by_pos(words)`.  The external tagger `nltk.pos_tag` is
embedded as an oracle `pos_tag` assigning a tag to each word; when the filter
is disabled or no allowed tags are set the word list is returned unchanged. -/
def POSFilter.filter_by_pos (f : POSFilter) (pos_tag : String → String)
    (words : List String) : List String :=
  if !f.enabled || f.allowed_pos_tags.isEmpty then words
  else if words.isEmpty then []
  else words.filter fun w => f.allowed_pos_tags.contains (pos_tag w)

/-- What reading one `.txt` file can yield: a UTF-8 decode, a GBK decode after
a UTF-8 failure, or no content at all (undecodable or unreadable). -/
inductive ReadOutcome where
  | utf8 (content : String)
  | gbk (content : String)
  | unreadable
deriving DecidableEq

/-- The content a read attempt of a file contributes, if any. -/
def readOutcomeContent : ReadOutcome → Option String
  | .utf8 c => some c
  | .gbk c => some c
  | .unreadable => none

/-- The file-system input of `FileLoader.load_txt_files`: whether the chosen
directory exists, and the `.txt` files found in it (file name paired with what
reading that file yields), in directory traversal order. -/
structure Directory where
  dirExists : Bool
  txtFiles : List (String × ReadOutcome)

/-- `FileLoader.load_txt_files(directory)`: raise `FileNotFoundError` when the
directory does not exist; otherwise load each decodable `.txt` file keyed by
its file name, skipping files whose read fails. -/
def FileLoader.load_txt_files (d : Directory) :
    Except String (List (String × String)) :=
  if d.dirExists then
    Except.ok (d.txtFiles.filterMap fun p =>
      (readOutcomeContent p.2).map fun c => (p.1, c))
  else
    Except.error "FileNotFoundError"

/-! Basic facts about `addCount`. -/

theorem sumCounts_nil : sumCounts [] = 0 := rfl

theorem sumCounts_cons (p : Entry) (t : Table) :
    sumCounts (p :: t) = p.2 + sumCounts t := by
  simp [sumCounts]

theorem sumCounts_addCount (t : Table) (w : String) (c : Nat) :
    sumCounts (addCount t w c) = sumCounts t + c := by
  induction t with
  | nil => simp [addCount, sumCounts]
  | cons q rest ih =>
    obtain ⟨k, v⟩ := q
    simp only [addCount]
    split
    · simp [sumCounts_cons]; omega
    · simp [sumCounts_cons, ih]; omega

theorem lookup_addCount (t : Table) (w : String) (c : Nat) (u : String) :
    lookup (addCount t w c) u = lookup t u + (if u = w then c else 0) := by
  induction t with
  | nil =>
    by_cases h : u = w
    · subst h; simp [addCount, lookup]
    · have h2 : ¬ w = u := fun he => h he.symm
      simp [addCount, lookup, h, h2]
  | cons q rest ih =>
    obtain ⟨k, v⟩ := q
    by_cases hk : k = w
    · subst hk
      simp only [addCount, if_pos rfl, lookup]
      by_cases hu : k = u
      · subst hu; simp
      · have h2 : ¬ u = k := fun he => hu he.symm
        simp [hu, h2]
    · simp only [addCount, if_neg hk, lookup]
      by_cases hu : k = u
      · subst hu
        have h2 : ¬ k = w := hk
        simp [h2]
      · simp [hu, ih]

theorem keys_cons (p : Entry) (t : Table) : keys (p :: t) = p.1 :: keys t := rfl

theorem keys_addCount_of_mem {t : Table} {w : String} (c : Nat)
    (h : w ∈ keys t) : keys (addCount t w c) = keys t := by
  induction t with
  | nil => simp [keys] at h
  | cons q rest ih =>
    obtain ⟨k, v⟩ := q
    simp only [addCount]
    by_cases hk : k = w
    · subst hk; simp [keys]
    · rw [if_neg hk]
      have hw : w ∈ keys rest := by
        rw [keys_cons, List.mem_cons] at h
        exact h.resolve_left (fun he => hk he.symm)
      rw [keys_cons, keys_cons, ih hw]

theorem keys_addCount_of_not_mem {t : Table} {w : String} (c : Nat)
    (h : w ∉ keys t) : keys (addCount t w c) = keys t ++ [w] := by
  induction t with
  | nil => simp [addCount, keys]
  | cons q rest ih =>
    obtain ⟨k, v⟩ := q
    have hk : k ≠ w := by
      intro he
      exact h (by rw [keys_cons, ← he]; exact List.mem_cons_self _ _)
    simp only [addCount, if_neg hk]
    have hw : w ∉ keys rest := fun hr =>
      h (by rw [keys_cons]; exact List.mem_cons_of_mem _ hr)
    rw [keys_cons, keys_cons, ih hw, List.cons_append]

theorem nodup_keys_addCount {t : Table} (w : String) (c : Nat)
    (h : (keys t).Nodup) : (keys (addCount t w c)).Nodup := by
  by_cases hw : w ∈ keys t
  · rw [keys_addCount_of_mem c hw]; exact h
  · rw [keys_addCount_of_not_mem c hw]
    simp [List.nodup_append, h, hw]

theorem lookup_eq_zero_of_not_mem_keys {t : Table} {u : String}
    (h : u ∉ keys t) : lookup t u = 0 := by
  induction t with
  | nil => rfl
  | cons q rest ih =>
    obtain ⟨k, v⟩ := q
    have hk : k ≠ u :=
      fun he => h (by rw [keys_cons, ← he]; exact List.mem_cons_self _ _)
    simp only [lookup, if_neg hk]
    exact ih (fun hr => h (by rw [keys_cons]; exact List.mem_cons_of_mem _ hr))

theorem mem_of_lookup_mem_keys {t : Table} {u : String}
    (h : u ∈ keys t) : (u, lookup t u) ∈ t := by
  induction t with
  | nil => simp [keys] at h
  | cons q rest ih =>
    obtain ⟨k, v⟩ := q
    by_cases hk : k = u
    · subst hk; simp [lookup]
    · simp only [lookup, if_neg hk]
      have hu : u ∈ keys rest := by
        simp only [keys, List.map_cons, List.mem_cons] at h
        exact h.resolve_left (fun he => hk he.symm)
      exact List.mem_cons_of_mem _ (ih hu)

/-! Facts about building a table with `counterOfList`. -/

theorem sumCounts_foldl_bump (ws : List String) :
    ∀ acc : Table, sumCounts (ws.foldl bump acc) = sumCounts acc + ws.length := by
  induction ws with
  | nil => intro acc; simp
  | cons w rest ih =>
    intro acc
    simp only [List.foldl_cons, List.length_cons, ih, bump, sumCounts_addCount]
    omega

theorem sumCounts_counterOfList (ws : List String) :
    sumCounts (counterOfList ws) = ws.length := by
  simpa [sumCounts_nil] using sumCounts_foldl_bump ws []

theorem nodup_keys_foldl_bump (ws : List String) :
    ∀ acc : Table, (keys acc).Nodup → (keys (ws.foldl bump acc)).Nodup := by
  induction ws with
  | nil => intro acc h; exact h
  | cons w rest ih =>
    intro acc h
    exact ih _ (nodup_keys_addCount w 1 h)

theorem nodup_keys_counterOfList (ws : List String) :
    (keys (counterOfList ws)).Nodup :=
  nodup_keys_foldl_bump ws [] (by simp [keys])

/-! Facts about `updateTable`. -/

theorem sumCounts_updateTable (o : Table) :
    ∀ t : Table, sumCounts (updateTable t o) = sumCounts t + sumCounts o := by
  induction o with
  | nil => intro t; simp [updateTable, sumCounts_nil]
  | cons q rest ih =>
    obtain ⟨k, c⟩ := q
    intro t
    simp only [updateTable, ih, sumCounts_addCount, sumCounts_cons]
    omega

theorem nodup_keys_updateTable (o : Table) :
    ∀ t : Table, (keys t).Nodup → (keys (updateTable t o)).Nodup := by
  induction o with
  | nil => intro t h; exact h
  | cons q rest ih =>
    obtain ⟨k, c⟩ := q
    intro t h
    exact ih _ (nodup_keys_addCount k c h)

theorem lookup_updateTable {o : Table} (ho : (keys o).Nodup) :
    ∀ (t : Table) (u : String),
      lookup (updateTable t o) u = lookup t u + lookup o u := by
  induction o with
  | nil => intro t u; simp [updateTable, lookup]
  | cons q rest ih =>
    obtain ⟨k, c⟩ := q
    intro t u
    have hrest : (keys rest).Nodup := (List.nodup_cons.1 ho).2
    have hk : k ∉ keys rest := by
      have := (List.nodup_cons.1 ho).1
      simpa [keys] using this
    simp only [updateTable, ih hrest, lookup_addCount, lookup]
    by_cases hu : u = k
    · subst hu
      rw [if_pos rfl, if_pos rfl, lookup_eq_zero_of_not_mem_keys hk]
      omega
    · rw [if_neg hu, if_neg (fun h => hu h.symm)]
      omega

/-! The stable descending sort behind `get_most_common`. -/

theorem mem_insertDesc {x p : Entry} {t : Table} :
    x ∈ insertDesc p t ↔ x = p ∨ x ∈ t := by
  induction t with
  | nil => simp [insertDesc]
  | cons q rest ih =>
    simp only [insertDesc]
    split
    · simp [List.mem_cons]
    · simp only [List.mem_cons, ih]
      tauto

theorem mem_sortDesc {x : Entry} {t : Table} : x ∈ sortDesc t ↔ x ∈ t := by
  induction t with
  | nil => simp [sortDesc]
  | cons p rest ih =>
    simp only [sortDesc, mem_insertDesc, List.mem_cons, ih]

theorem pairwise_insertDesc {R : Entry → Entry → Prop}
    (hR : ∀ a b, R a b → b.2 ≤ a.2) {p : Entry} {t : Table}
    (ht : t.Pairwise R)
    (h1 : ∀ q ∈ t, q.2 ≤ p.2 → R p q)
    (h2 : ∀ q ∈ t, p.2 < q.2 → R q p) :
    (insertDesc p t).Pairwise R := by
  induction t with
  | nil => simp [insertDesc]
  | cons q rest ih =>
    rcases List.pairwise_cons.1 ht with ⟨hq, hrest⟩
    simp only [insertDesc]
    split
    · next hle =>
      refine List.pairwise_cons.2 ⟨?_, ht⟩
      intro x hx
      rcases List.mem_cons.1 hx with rfl | hx2
      · exact h1 _ (List.mem_cons_self _ _) hle
      · exact h1 _ (List.mem_cons_of_mem _ hx2)
          (le_trans (hR _ _ (hq _ hx2)) hle)
    · next hgt =>
      push_neg at hgt
      refine List.pairwise_cons.2 ⟨?_, ?_⟩
      · intro x hx
        rcases mem_insertDesc.1 hx with rfl | hx2
        · exact h2 _ (List.mem_cons_self _ _) hgt
        · exact hq _ hx2
      · exact ih hrest
          (fun x hx hle => h1 _ (List.mem_cons_of_mem _ hx) hle)
          (fun x hx hlt => h2 _ (List.mem_cons_of_mem _ hx) hlt)

theorem pairwise_sortDesc {R : Entry → Entry → Prop}
    (hR : ∀ a b, R a b → b.2 ≤ a.2) {t : Table}
    (ht : t.Pairwise fun a b => (b.2 ≤ a.2 → R a b) ∧ (a.2 < b.2 → R b a)) :
    (sortDesc t).Pairwise R := by
  induction t with
  | nil => simp [sortDesc]
  | cons p rest ih =>
    rcases List.pairwise_cons.1 ht with ⟨hp, hrest⟩
    exact pairwise_insertDesc hR (ih hrest)
      (fun q hq hle => (hp q (mem_sortDesc.1 hq)).1 hle)
      (fun q hq hlt => (hp q (mem_sortDesc.1 hq)).2 hlt)

/-! Insertion order of the table built by `counterOfList` is first-occurrence
order of the words, captured by `firstDedup`. -/

/-- The words of a list in order of first occurrence, each once. -/
def firstDedup : List String → List String
  | [] => []
  | w :: rest => w :: (firstDedup rest).filter (fun x => x != w)

theorem filter_swap {α : Type} (p q : α → Bool) (l : List α) :
    (l.filter p).filter q = (l.filter q).filter p := by
  rw [List.filter_filter, List.filter_filter]
  exact List.filter_congr fun x _ => Bool.and_comm _ _

theorem firstDedup_filter (p : String → Bool) (l : List String) :
    firstDedup (l.filter p) = (firstDedup l).filter p := by
  induction l with
  | nil => simp [firstDedup]
  | cons w rest ih =>
    by_cases hp : p w = true
    · rw [List.filter_cons_of_pos hp]
      simp only [firstDedup]
      rw [List.filter_cons_of_pos hp, ih, filter_swap]
    · rw [List.filter_cons_of_neg (by simp [hp])]
      simp only [firstDedup]
      rw [List.filter_cons_of_neg (by simp [hp]), ih, filter_swap]
      symm
      apply List.filter_eq_self.2
      intro x hx
      rcases List.mem_filter.1 hx with ⟨_, hxp⟩
      have : x ≠ w := fun he => hp (he ▸ hxp)
      simpa using this

theorem keys_foldl_bump (ws : List String) :
    ∀ acc : Table, keys (ws.foldl bump acc)
      = keys acc ++ firstDedup (ws.filter fun w => !(decide (w ∈ keys acc))) := by
  induction ws with
  | nil => intro acc; simp [firstDedup]
  | cons w rest ih =>
    intro acc
    simp only [List.foldl_cons]
    rw [ih (bump acc w)]
    by_cases hw : w ∈ keys acc
    · have hk : keys (bump acc w) = keys acc := keys_addCount_of_mem 1 hw
      rw [hk, List.filter_cons_of_neg (by simp [hw])]
    · have hk : keys (bump acc w) = keys acc ++ [w] :=
        keys_addCount_of_not_mem 1 hw
      rw [hk, List.filter_cons_of_pos (by simp [hw])]
      have hpred : rest.filter (fun u => !(decide (u ∈ keys acc ++ [w])))
          = (rest.filter (fun u => !(decide (u ∈ keys acc)))).filter
              (fun x => x != w) := by
        rw [List.filter_filter]
        apply List.filter_congr
        intro a _
        by_cases h1 : a ∈ keys acc <;> by_cases h2 : a = w <;>
          simp [h1, h2, List.mem_append]
      rw [hpred, firstDedup_filter]
      simp only [firstDedup, List.append_assoc, List.singleton_append]

theorem keys_counterOfList (ws : List String) :
    keys (counterOfList ws) = firstDedup ws := by
  have h := keys_foldl_bump ws []
  simpa [counterOfList, keys] using h

theorem pairwise_indexOf_firstDedup (ws : List String) :
    (firstDedup ws).Pairwise fun a b => ws.indexOf a < ws.indexOf b := by
  induction ws with
  | nil => simp [firstDedup]
  | cons w rest ih =>
    simp only [firstDedup]
    refine List.pairwise_cons.2 ⟨?_, ?_⟩
    · intro x hx
      have hxw : x ≠ w := by
        have := (List.mem_filter.1 hx).2
        simpa using this
      rw [List.indexOf_cons_self, List.indexOf_cons_ne _ (Ne.symm hxw)]
      exact Nat.succ_pos _
    · refine List.Pairwise.imp_of_mem ?_ (ih.filter (fun x => x != w))
      intro a b ha hb hab
      have haw : a ≠ w := by
        have := (List.mem_filter.1 ha).2
        simpa using this
      have hbw : b ≠ w := by
        have := (List.mem_filter.1 hb).2
        simpa using this
      rw [List.indexOf_cons_ne _ (Ne.symm haw),
        List.indexOf_cons_ne _ (Ne.symm hbw)]
      exact Nat.succ_lt_succ hab

theorem pairwise_indexOf_counterOfList (ws : List String) :
    (counterOfList ws).Pairwise fun a b : Entry =>
      ws.indexOf a.1 < ws.indexOf b.1 := by
  have h := pairwise_indexOf_firstDedup ws
  rw [← keys_counterOfList ws] at h
  simp only [keys] at h
  exact (@List.pairwise_map Entry String Prod.fst
    (fun a b => List.indexOf a ws < List.indexOf b ws) (counterOfList ws)).1 h

/-! The claims about the program. -/

/-- C1: for every token list `ws`, the frequency table returned by
`WordCounter.count_words(ws)` has counts summing to the length of `ws`. -/
theorem count_words_returned_sum (s : WordCounter) (ws : List String) :
    sumCounts (s.count_words ws).2 = ws.length := by
  unfold WordCounter.count_words
  split
  · next he =>
    rw [List.isEmpty_iff] at he
    subst he
    rfl
  · exact sumCounts_counterOfList ws

/-- C2, counterexample: counting an empty token list does not replace a prior
nonempty counter state, so `count_words` is not unconditionally
state-replacing. -/
theorem count_words_replace_cex :
    ¬ ∀ (s : WordCounter) (ws : List String),
        (s.count_words ws).1.word_counts = counterOfList ws ∧
        (s.count_words ws).1.total_words = ws.length := by
  intro h
  have h2 := (h { word_counts := [("a", 1)], total_words := 1 } []).1
  simp [WordCounter.count_words, counterOfList] at h2

/-- C2, amended: for a nonempty token list `ws`, `count_words` replaces any
prior state with the frequency table of `ws` and total `ws.length`; for the
empty token list the prior state is left unchanged. -/
theorem count_words_state (s : WordCounter) (ws : List String) :
    (ws ≠ [] → (s.count_words ws).1
      = { word_counts := counterOfList ws, total_words := ws.length }) ∧
    (s.count_words []).1 = s := by
  constructor
  · intro h
    unfold WordCounter.count_words
    rw [if_neg (by simp [h])]
  · rfl

theorem count_words_state_witness :
    (WordCounter.count_words { word_counts := [("b", 2)], total_words := 2 }
        ["a", "a"]).1
      = { word_counts := counterOfList ["a", "a"],
          total_words := (["a", "a"] : List String).length } ∧
    (WordCounter.count_words { word_counts := [("b", 2)], total_words := 2 }
        []).1 = { word_counts := [("b", 2)], total_words := 2 } :=
  ⟨(count_words_state _ ["a", "a"]).1 (by simp),
   (count_words_state { word_counts := [("b", 2)], total_words := 2 } []).2⟩

/-- C3: for every token list `ws` used to build the counter and every `n`,
`get_most_common n` is sorted non-increasingly by count, and stably so: words
of equal count appear in the order of their first occurrence in `ws`. -/
theorem get_most_common_sorted_stable (ws : List String) (n : Nat) :
    (((WordCounter.mkEmpty.count_words ws).1).get_most_common n).Pairwise
      fun a b : Entry =>
        b.2 ≤ a.2 ∧ (a.2 = b.2 → ws.indexOf a.1 < ws.indexOf b.1) := by
  refine List.Pairwise.sublist (List.take_sublist _ _) ?_
  by_cases hws : ws.isEmpty
  · rw [List.isEmpty_iff] at hws
    subst hws
    simp [WordCounter.count_words, WordCounter.mkEmpty, sortDesc]
  · have hstate : (WordCounter.mkEmpty.count_words ws).1.word_counts
        = counterOfList ws := by
      simp [WordCounter.count_words, hws]
    rw [hstate]
    refine pairwise_sortDesc (fun a b h => h.1) ?_
    refine (pairwise_indexOf_counterOfList ws).imp ?_
    intro a b hab
    constructor
    · intro hle
      exact ⟨hle, fun _ => hab⟩
    · intro hlt
      exact ⟨Nat.le_of_lt hlt, fun he => by omega⟩

/-- C4: after `a.merge_counts(b)`, the count of every word equals the sum of
its previous counts in `a` and in `b`. -/
theorem merge_counts_adds (a b : WordCounter) (w : String)
    (hb : (keys b.word_counts).Nodup) :
    lookup (a.merge_counts b).word_counts w
      = lookup a.word_counts w + lookup b.word_counts w := by
  unfold WordCounter.merge_counts
  split
  · next he =>
    rw [List.isEmpty_iff] at he
    rw [he]
    rfl
  · exact lookup_updateTable hb _ _

theorem merge_counts_adds_witness :
    lookup (WordCounter.merge_counts
        { word_counts := [("x", 2)], total_words := 2 }
        { word_counts := [("x", 1), ("y", 3)], total_words := 4 }).word_counts
        "x"
      = lookup [(("x" : String), 2)] "x"
        + lookup [(("x" : String), 1), ("y", 3)] "x" :=
  merge_counts_adds { word_counts := [("x", 2)], total_words := 2 }
    { word_counts := [("x", 1), ("y", 3)], total_words := 4 } "x" (by decide)

/-- C5: filtering by a minimum frequency `k` with no upper bound returns
exactly the table entries whose count is at least `k`, counts unchanged. -/
theorem filter_by_frequency_min_spec (s : WordCounter) (k : Int) (w : String)
    (c : Nat) :
    (w, c) ∈ s.filter_by_frequency k none
      ↔ (w, c) ∈ s.word_counts ∧ k ≤ (c : Int) := by
  simp [WordCounter.filter_by_frequency]

/-- C6: at every reachable counter state, the table's counts are non-negative
integers and its key set has no duplicate words. -/
theorem reachable_table_invariant (s : WordCounter) (h : Reachable s) :
    (keys s.word_counts).Nodup ∧ ∀ p ∈ s.word_counts, 0 ≤ (p.2 : Int) := by
  induction h with
  | mkEmpty =>
    exact ⟨by simp [WordCounter.mkEmpty, keys], fun p _ => Int.ofNat_nonneg p.2⟩
  | count_words a ws ha ih =>
    unfold WordCounter.count_words
    split
    · exact ih
    · exact ⟨nodup_keys_counterOfList ws, fun p _ => Int.ofNat_nonneg p.2⟩
  | merge_counts a o ha ho iha iho =>
    unfold WordCounter.merge_counts
    split
    · exact iha
    · exact ⟨nodup_keys_updateTable _ _ iha.1, fun p _ => Int.ofNat_nonneg p.2⟩
  | clear a ha =>
    exact ⟨by simp [WordCounter.clear, keys], fun p _ => Int.ofNat_nonneg p.2⟩

theorem reachable_table_invariant_witness :
    (keys ((WordCounter.mkEmpty.count_words ["a", "b", "a"]).1).word_counts).Nodup
      ∧ ∀ p ∈ ((WordCounter.mkEmpty.count_words ["a", "b", "a"]).1).word_counts,
        0 ≤ (p.2 : Int) :=
  reachable_table_invariant _
    (Reachable.count_words WordCounter.mkEmpty ["a", "b", "a"]
      Reachable.mkEmpty)

/-- C7: with the filter disabled or no allowed tags set, `filter_by_pos`
returns the word list unchanged, whatever the tagger does. -/
theorem filter_by_pos_passthrough (f : POSFilter) (tag : String → String)
    (ws : List String)
    (h : f.enabled = false ∨ f.allowed_pos_tags = []) :
    f.filter_by_pos tag ws = ws := by
  unfold POSFilter.filter_by_pos
  rcases h with h | h <;> simp [h]

theorem filter_by_pos_passthrough_witness :
    POSFilter.filter_by_pos { enabled := false, allowed_pos_tags := ["NN"] }
      (fun _ => "NN") ["dog", "runs"] = ["dog", "runs"] :=
  filter_by_pos_passthrough { enabled := false, allowed_pos_tags := ["NN"] }
    (fun _ => "NN") ["dog", "runs"] (Or.inl rfl)

/-- C8: `load_txt_files` fails exactly when the directory does not exist;
when it exists, the returned mapping holds precisely one entry, keyed by file
name, for each file whose read yields content, while unreadable or
undecodable files are skipped without affecting the rest. -/
theorem load_txt_files_spec (d : Directory) :
    ((∃ e, FileLoader.load_txt_files d = Except.error e)
      ↔ d.dirExists = false) ∧
    ∀ l, FileLoader.load_txt_files d = Except.ok l →
      ∀ name c, ((name, c) ∈ l
        ↔ ∃ r, (name, r) ∈ d.txtFiles ∧ readOutcomeContent r = some c) := by
  unfold FileLoader.load_txt_files
  by_cases hd : d.dirExists
  · rw [if_pos hd]
    refine ⟨⟨?_, ?_⟩, ?_⟩
    · rintro ⟨e, he⟩
      cases he
    · intro hfalse
      rw [hd] at hfalse
      cases hfalse
    intro l hl name c
    cases hl
    constructor
    · intro hm
      rcases List.mem_filterMap.1 hm with ⟨⟨n, r⟩, hp, he⟩
      rcases Option.map_eq_some'.1 he with ⟨c2, hc2, heq⟩
      injection heq with h1 h2
      subst h1
      subst h2
      exact ⟨r, hp, hc2⟩
    · rintro ⟨r, hr, hc⟩
      exact List.mem_filterMap.2 ⟨(name, r), hr, by simp [hc]⟩
  · rw [if_neg hd]
    refine ⟨⟨fun _ => by simpa using hd, fun _ => ⟨_, rfl⟩⟩, ?_⟩
    intro l hl
    cases hl

theorem load_txt_files_spec_witness :
    (("a.txt", "hi") : String × String) ∈ [(("a.txt" : String), "hi")] :=
  ((load_txt_files_spec
      { dirExists := true,
        txtFiles := [("a.txt", ReadOutcome.utf8 "hi"),
          ("b.txt", ReadOutcome.unreadable)] }).2
    [("a.txt", "hi")] rfl "a.txt" "hi").2
    ⟨ReadOutcome.utf8 "hi", by simp, rfl⟩

/-! Character-level facts behind the case-insensitive lookup. -/

theorem toNat_ofNat_valid (n : Nat) (h : n.isValidChar) :
    (Char.ofNat n).toNat = n := by
  simp only [Char.ofNat, dif_pos h, Char.ofNatAux, Char.toNat]
  rfl

theorem isUpper_iff (c : Char) :
    c.isUpper = true ↔ 65 ≤ c.toNat ∧ c.toNat ≤ 90 := by
  simp [Char.isUpper, UInt32.le_def, BitVec.le_def]
  exact Iff.rfl

theorem isUpper_toLower (c : Char) : (Char.toLower c).isUpper = false := by
  by_cases h : 65 ≤ c.toNat ∧ c.toNat ≤ 90
  · have hl : Char.toLower c = Char.ofNat (c.toNat + 32) := by
      simp only [Char.toLower]
      exact if_pos ⟨h.1, h.2⟩
    have hval : (c.toNat + 32).isValidChar := Or.inl (by omega)
    have hX : (Char.toLower c).toNat = c.toNat + 32 := by
      rw [hl]
      exact toNat_ofNat_valid _ hval
    rw [Bool.eq_false_iff]
    intro hup
    obtain ⟨h1, h2⟩ := (isUpper_iff _).1 hup
    rw [hX] at h1 h2
    omega
  · have hl : Char.toLower c = c := by
      simp only [Char.toLower]
      exact if_neg h
    rw [hl, Bool.eq_false_iff]
    intro hup
    exact h ((isUpper_iff c).1 hup)

/-- C9: `get_word_frequency(w)` looks up the lowercased query: it returns the
table's stored count when `lower(w)` is a key and 0 otherwise, and a key
containing an uppercase letter can never be the lowercased query, hence can
never be retrieved. -/
theorem get_word_frequency_spec (s : WordCounter) (w k : String) :
    (pyLower w ∈ keys s.word_counts →
      (pyLower w, s.get_word_frequency w) ∈ s.word_counts) ∧
    (pyLower w ∉ keys s.word_counts → s.get_word_frequency w = 0) ∧
    ((∃ c ∈ k.data, c.isUpper = true) → pyLower w ≠ k) := by
  refine ⟨?_, ?_, ?_⟩
  · intro h
    exact mem_of_lookup_mem_keys h
  · intro h
    exact lookup_eq_zero_of_not_mem_keys h
  · rintro ⟨c, hc, hup⟩ he
    have hdata : k.data = w.data.map Char.toLower := by
      rw [← he]
      rfl
    rw [hdata] at hc
    rcases List.mem_map.1 hc with ⟨c0, _, rfl⟩
    rw [isUpper_toLower] at hup
    cases hup

theorem get_word_frequency_spec_witness :
    (pyLower "ABC",
        WordCounter.get_word_frequency
          { word_counts := [("abc", 2)], total_words := 2 } "ABC")
      ∈ [(("abc" : String), 2)] ∧
    pyLower "ABC" ≠ "Abc" :=
  ⟨(get_word_frequency_spec { word_counts := [("abc", 2)], total_words := 2 }
      "ABC" "Abc").1 (by decide),
   (get_word_frequency_spec { word_counts := [("abc", 2)], total_words := 2 }
      "ABC" "Abc").2.2 ⟨'A', by decide, by decide⟩⟩

/-- C10: the invariant `total_words = sum of the table's counts` holds at
construction and is preserved by every state-changing operation of
`WordCounter`. -/
theorem total_words_invariant (s : WordCounter) (h : Reachable s) :
    s.total_words = sumCounts s.word_counts := by
  induction h with
  | mkEmpty => rfl
  | count_words a ws ha ih =>
    unfold WordCounter.count_words
    split
    · exact ih
    · exact (sumCounts_counterOfList ws).symm
  | merge_counts a o ha ho iha iho =>
    unfold WordCounter.merge_counts
    split
    · exact iha
    · show a.total_words + o.total_words
        = sumCounts (updateTable a.word_counts o.word_counts)
      rw [sumCounts_updateTable, iha, iho]
  | clear a ha => rfl

theorem total_words_invariant_witness :
    ((WordCounter.mkEmpty.count_words ["a", "b", "a"]).1).total_words
      = sumCounts ((WordCounter.mkEmpty.count_words ["a", "b", "a"]).1).word_counts :=
  total_words_invariant _
    (Reachable.count_words WordCounter.mkEmpty ["a", "b", "a"]
      Reachable.mkEmpty)

end WFA
